import Mathlib

/-
Verification of the paxmark reconciliation core (src/main.rs).

The program keeps five PaX feature marks (identifiers 'P','E','M','R','S')
in a short string; the case of each letter encodes enabled (upper) versus
disabled (lower).  The core logic is:
  * `Delta::new`   - build a per-mark directive from two booleans,
  * `Delta::apply` - apply a directive to a character's case,
  * the scan in `main` that consumes a `BTreeMap<char, Delta>` while
    walking the current raw string, and finally appends the unmatched
    keys of the map.

Rust strings are modelled as `List Char`, the `BTreeMap` as an
association list kept in ascending key order (which is both its storage
and iteration order), and `BTreeMap::remove` as `removeKey`.
-/

namespace Paxmark

/-- Models Rust `char::to_ascii_uppercase`: ASCII letters `a`-`z`
(code points 97-122) are mapped down by 32; every other character,
including non-ASCII ones, is returned unchanged. -/
def toAsciiUpper (c : Char) : Char :=
  if 97 ≤ c.toNat ∧ c.toNat ≤ 122 then Char.ofNat (c.toNat - 32) else c

/-- Models Rust `char::to_ascii_lowercase`: ASCII letters `A`-`Z`
(code points 65-90) are mapped up by 32; every other character is
returned unchanged. -/
def toAsciiLower (c : Char) : Char :=
  if 65 ≤ c.toNat ∧ c.toNat ≤ 90 then Char.ofNat (c.toNat + 32) else c

/-- Models the Rust enum `Delta` from src/main.rs. -/
inductive Delta where
  | Enable
  | Disable
  | Keep
deriving DecidableEq

/-- Models `Delta::new(enable, disable)` from src/main.rs. -/
def Delta.new (enable disable : Bool) : Delta :=
  match enable, disable with
  | true, _ => .Enable
  | _, true => .Disable
  | _, _ => .Keep

/-- Models `Delta::apply(self, c)` from src/main.rs. -/
def Delta.apply (d : Delta) (c : Char) : Char :=
  match d with
  | .Enable => toAsciiUpper c
  | .Disable => toAsciiLower c
  | .Keep => c

/-- The five known mark identifiers in ascending code-point order,
which is the key order of the `BTreeMap` built by `Cli::get_delta`. -/
def markKeys : List Char := ['E', 'M', 'P', 'R', 'S']

/-- The directive map of `Cli::get_delta`, abstracted over the five
directive values.  A `BTreeMap<char, Delta>` stores its entries sorted
by key, so the model is an association list in ascending key order
'E' < 'M' < 'P' < 'R' < 'S'. -/
def mkDelta (dP dE dM dR dS : Delta) : List (Char × Delta) :=
  [('E', dE), ('M', dM), ('P', dP), ('R', dR), ('S', dS)]

/-- Models `Cli::get_delta` from src/main.rs: one `Delta::new` per mark
from its enable/disable request flags. -/
def get_delta (eP dP eE dE eM dM eR dR eS dS : Bool) : List (Char × Delta) :=
  mkDelta (Delta.new eP dP) (Delta.new eE dE) (Delta.new eM dM)
    (Delta.new eR dR) (Delta.new eS dS)

/-- Models `BTreeMap::remove(&k)`: returns the value stored under `k`
(if any) together with the map with that entry removed. -/
def removeKey (k : Char) : List (Char × Delta) → Option Delta × List (Char × Delta)
  | [] => (none, [])
  | (q, d) :: rest =>
    if k = q then (some d, rest)
    else ((removeKey k rest).1, (q, d) :: (removeKey k rest).2)

/-- Models the `filter_map` scan over the current raw string in `main`
(src/main.rs lines 130-139): each character is looked up (case-folded)
in the remaining directive map; on a hit the directive is applied and the
entry consumed, on a miss the character is dropped and the validity flag
cleared.  Returns (output characters, remaining map, validity flag). -/
def scan : List (Char × Delta) → List Char → List Char × List (Char × Delta) × Bool
  | m, [] => ([], m, true)
  | m, c :: cs =>
    match (removeKey (toAsciiUpper c) m).1 with
    | some d =>
      (d.apply c :: (scan (removeKey (toAsciiUpper c) m).2 cs).1,
        (scan (removeKey (toAsciiUpper c) m).2 cs).2.1,
        (scan (removeKey (toAsciiUpper c) m).2 cs).2.2)
    | none =>
      ((scan m cs).1, (scan m cs).2.1, false)

/-- Models the whole Reconciler of `main` (src/main.rs lines 117-146):
the scan followed by appending the keys of the remaining map in their
(ascending) iteration order.  Returns the new mark string and the
validity flag `valid_current`. -/
def reconcile (m : List (Char × Delta)) (current : List Char) : List Char × Bool :=
  ((scan m current).1 ++ (scan m current).2.1.map Prod.fst, (scan m current).2.2)

/-- Claim-side definition, following the spec's words only: the raw
string is well-formed when it has no duplicate marks, no unknown
characters, and every known mark present (hence, with no duplicates,
present exactly once). -/
def wellFormedSpec (raw : List Char) : Prop :=
  (raw.map toAsciiUpper).Nodup ∧ (∀ c ∈ raw, toAsciiUpper c ∈ markKeys) ∧
    ∀ K ∈ markKeys, K ∈ raw.map toAsciiUpper

/-- Claim-side definition: the number of characters of the raw string the
scan skips, i.e. whose case-folded identity is not a known mark or was
already consumed by an earlier character (`seen` holds the identities
consumed so far). -/
def countSkipped (seen : List Char) : List Char → Nat
  | [] => 0
  | c :: cs =>
    if toAsciiUpper c ∈ markKeys ∧ toAsciiUpper c ∉ seen then
      countSkipped (toAsciiUpper c :: seen) cs
    else
      countSkipped seen cs + 1

theorem toNat_ofNat_valid (n : Nat) (h : n.isValidChar) : (Char.ofNat n).toNat = n := by
  rw [Char.ofNat, dif_pos h]
  rfl

theorem char_toNat_inj {a b : Char} (h : a.toNat = b.toNat) : a = b := by
  have h2 := congrArg Char.ofNat h
  rwa [Char.ofNat_toNat, Char.ofNat_toNat] at h2

theorem toAsciiUpper_toNat (c : Char) :
    (toAsciiUpper c).toNat =
      if 97 ≤ c.toNat ∧ c.toNat ≤ 122 then c.toNat - 32 else c.toNat := by
  unfold toAsciiUpper
  split
  case isTrue h => exact toNat_ofNat_valid _ (Or.inl (by omega))
  case isFalse h => rfl

theorem toAsciiLower_toNat (c : Char) :
    (toAsciiLower c).toNat =
      if 65 ≤ c.toNat ∧ c.toNat ≤ 90 then c.toNat + 32 else c.toNat := by
  unfold toAsciiLower
  split
  case isTrue h => exact toNat_ofNat_valid _ (Or.inl (by omega))
  case isFalse h => rfl

theorem toAsciiUpper_idem (c : Char) :
    toAsciiUpper (toAsciiUpper c) = toAsciiUpper c := by
  apply char_toNat_inj
  simp only [toAsciiUpper_toNat]
  split_ifs <;> omega

theorem toAsciiUpper_toAsciiLower (c : Char) :
    toAsciiUpper (toAsciiLower c) = toAsciiUpper c := by
  apply char_toNat_inj
  simp only [toAsciiUpper_toNat, toAsciiLower_toNat]
  split_ifs <;> omega

theorem apply_fold (d : Delta) (c : Char) :
    toAsciiUpper (Delta.apply d c) = toAsciiUpper c := by
  cases d
  case Enable => exact toAsciiUpper_idem c
  case Disable => exact toAsciiUpper_toAsciiLower c
  case Keep => rfl

theorem removeKey_eq_none (k : Char) (m : List (Char × Delta))
    (h : k ∉ m.map Prod.fst) : removeKey k m = (none, m) := by
  induction m with
  | nil => rfl
  | cons p rest ih =>
    obtain ⟨q, d⟩ := p
    simp only [List.map_cons, List.mem_cons, not_or] at h
    simp only [removeKey, if_neg h.1, ih h.2]

theorem removeKey_mem (k : Char) (m : List (Char × Delta))
    (h : k ∈ m.map Prod.fst) :
    ∃ d m', removeKey k m = (some d, m') ∧ (k, d) ∈ m ∧
      List.Perm (m.map Prod.fst) (k :: m'.map Prod.fst) ∧ m' ⊆ m := by
  induction m with
  | nil => simp at h
  | cons p rest ih =>
    obtain ⟨q, d'⟩ := p
    by_cases hk : k = q
    · subst hk
      refine ⟨d', rest, ?_, List.mem_cons_self _ _, by simp, List.subset_cons_self _ _⟩
      simp [removeKey]
    · have h' : k ∈ rest.map Prod.fst := by
        simp only [List.map_cons, List.mem_cons] at h
        tauto
      obtain ⟨d, m', he, hmem, hperm, hsub⟩ := ih h'
      refine ⟨d, (q, d') :: m', ?_, List.mem_cons_of_mem _ hmem, ?_, ?_⟩
      · simp only [removeKey, if_neg hk, he]
      · simp only [List.map_cons]
        exact (hperm.cons q).trans (List.Perm.swap k q _)
      · exact List.cons_subset_cons _ hsub

theorem scan_sub (raw : List Char) : ∀ m : List (Char × Delta),
    (scan m raw).2.1 ⊆ m := by
  induction raw with
  | nil => intro m; simp [scan]
  | cons c cs ih =>
    intro m
    by_cases hmem : toAsciiUpper c ∈ m.map Prod.fst
    · obtain ⟨d, m', he, _, _, hsub⟩ := removeKey_mem _ _ hmem
      have h1 : (removeKey (toAsciiUpper c) m).1 = some d := by rw [he]
      have h2 : (removeKey (toAsciiUpper c) m).2 = m' := by rw [he]
      simp only [scan, h1, h2]
      exact (ih m').trans hsub
    · have h1 : (removeKey (toAsciiUpper c) m).1 = none := by
        rw [removeKey_eq_none _ _ hmem]
      simp only [scan, h1]
      exact ih m

theorem scan_perm (raw : List Char) : ∀ m : List (Char × Delta),
    List.Perm ((scan m raw).1.map toAsciiUpper ++ (scan m raw).2.1.map Prod.fst)
      (m.map Prod.fst) := by
  induction raw with
  | nil => intro m; simp [scan]
  | cons c cs ih =>
    intro m
    by_cases hmem : toAsciiUpper c ∈ m.map Prod.fst
    · obtain ⟨d, m', he, _, hperm, _⟩ := removeKey_mem _ _ hmem
      have h1 : (removeKey (toAsciiUpper c) m).1 = some d := by rw [he]
      have h2 : (removeKey (toAsciiUpper c) m).2 = m' := by rw [he]
      simp only [scan, h1, h2, List.map_cons, List.cons_append, apply_fold]
      exact ((ih m').cons (toAsciiUpper c)).trans hperm.symm
    · have h1 : (removeKey (toAsciiUpper c) m).1 = none := by
        rw [removeKey_eq_none _ _ hmem]
      simp only [scan, h1]
      exact ih m

theorem scan_valid (raw : List Char) : ∀ m : List (Char × Delta),
    (m.map Prod.fst).Nodup →
    ((scan m raw).2.2 = true ↔
      ((raw.map toAsciiUpper).Nodup ∧ ∀ c ∈ raw, toAsciiUpper c ∈ m.map Prod.fst)) := by
  induction raw with
  | nil => intro m _; simp [scan]
  | cons c cs ih =>
    intro m hm
    by_cases hmem : toAsciiUpper c ∈ m.map Prod.fst
    · obtain ⟨d, m', he, _, hperm, _⟩ := removeKey_mem _ _ hmem
      have h1 : (removeKey (toAsciiUpper c) m).1 = some d := by rw [he]
      have h2 : (removeKey (toAsciiUpper c) m).2 = m' := by rw [he]
      have hnd : (toAsciiUpper c :: m'.map Prod.fst).Nodup := hperm.nodup hm
      have hnotin : toAsciiUpper c ∉ m'.map Prod.fst := (List.nodup_cons.mp hnd).1
      have hnd' : (m'.map Prod.fst).Nodup := (List.nodup_cons.mp hnd).2
      simp only [scan, h1, h2]
      rw [ih m' hnd']
      constructor
      · rintro ⟨hnodup, hall⟩
        refine ⟨List.nodup_cons.mpr ⟨?_, hnodup⟩, ?_⟩
        · intro hc
          obtain ⟨x, hx, hfx⟩ := List.mem_map.mp hc
          exact hnotin (hfx ▸ hall x hx)
        · intro x hx
          rcases List.mem_cons.mp hx with rfl | hx'
          · exact hmem
          · exact hperm.mem_iff.mpr (List.mem_cons_of_mem _ (hall x hx'))
      · rintro ⟨hnodup, hall⟩
        rw [List.map_cons, List.nodup_cons] at hnodup
        obtain ⟨hhead, htail⟩ := hnodup
        refine ⟨htail, fun x hx => ?_⟩
        have hxm : toAsciiUpper x ∈ m.map Prod.fst := hall x (List.mem_cons_of_mem _ hx)
        rcases List.mem_cons.mp (hperm.mem_iff.mp hxm) with heq | hx'
        · exact absurd (heq ▸ List.mem_map_of_mem toAsciiUpper hx) hhead
        · exact hx'
    · have h1 : (removeKey (toAsciiUpper c) m).1 = none := by
        rw [removeKey_eq_none _ _ hmem]
      simp only [scan, h1]
      constructor
      · intro h
        cases h
      · rintro ⟨_, hall⟩
        exact absurd (hall c (List.mem_cons_self _ _)) hmem

theorem scan_count (raw : List Char) : ∀ (m : List (Char × Delta)) (seen : List Char),
    (m.map Prod.fst).Nodup →
    (∀ k, k ∈ m.map Prod.fst ↔ (k ∈ markKeys ∧ k ∉ seen)) →
    ((scan m raw).1.length + countSkipped seen raw = raw.length ∧
      ((scan m raw).2.2 = true ↔ countSkipped seen raw = 0)) := by
  induction raw with
  | nil => intro m seen _ _; simp [scan, countSkipped]
  | cons c cs ih =>
    intro m seen hm hinv
    by_cases hmem : toAsciiUpper c ∈ m.map Prod.fst
    · obtain ⟨d, m', he, _, hperm, _⟩ := removeKey_mem _ _ hmem
      have h1 : (removeKey (toAsciiUpper c) m).1 = some d := by rw [he]
      have h2 : (removeKey (toAsciiUpper c) m).2 = m' := by rw [he]
      have hnd : (toAsciiUpper c :: m'.map Prod.fst).Nodup := hperm.nodup hm
      have hnotin : toAsciiUpper c ∉ m'.map Prod.fst := (List.nodup_cons.mp hnd).1
      have hnd' : (m'.map Prod.fst).Nodup := (List.nodup_cons.mp hnd).2
      have hck : toAsciiUpper c ∈ markKeys ∧ toAsciiUpper c ∉ seen := (hinv _).mp hmem
      have hinv' : ∀ k, k ∈ m'.map Prod.fst ↔
          (k ∈ markKeys ∧ k ∉ toAsciiUpper c :: seen) := by
        intro k
        constructor
        · intro hk
          have hkm : k ∈ m.map Prod.fst := hperm.mem_iff.mpr (List.mem_cons_of_mem _ hk)
          have := (hinv k).mp hkm
          refine ⟨this.1, ?_⟩
          intro hmem2
          rcases List.mem_cons.mp hmem2 with rfl | hk2
          · exact hnotin hk
          · exact this.2 hk2
        · rintro ⟨hk1, hk2⟩
          simp only [List.mem_cons, not_or] at hk2
          have hkm : k ∈ m.map Prod.fst := (hinv k).mpr ⟨hk1, hk2.2⟩
          rcases List.mem_cons.mp (hperm.mem_iff.mp hkm) with heq | hk'
          · exact absurd heq hk2.1
          · exact hk'
      have hrec := ih m' (toAsciiUpper c :: seen) hnd' hinv'
      simp only [scan, h1, h2, countSkipped, if_pos hck, List.length_cons]
      exact ⟨by omega, hrec.2⟩
    · have h1 : (removeKey (toAsciiUpper c) m).1 = none := by
        rw [removeKey_eq_none _ _ hmem]
      have hck : ¬(toAsciiUpper c ∈ markKeys ∧ toAsciiUpper c ∉ seen) := by
        intro hc
        exact hmem ((hinv _).mpr hc)
      have hrec := ih m seen hm hinv
      simp only [scan, h1, countSkipped, if_neg hck, List.length_cons]
      exact ⟨by omega, by simp⟩

theorem scan_keep (raw : List Char) : ∀ m : List (Char × Delta),
    (∀ p ∈ m, p.2 = Delta.Keep) →
    List.Perm (raw.map toAsciiUpper) (m.map Prod.fst) →
    scan m raw = (raw, [], true) := by
  induction raw with
  | nil =>
    intro m _ hperm
    have hm : m = [] := List.map_eq_nil_iff.mp hperm.symm.eq_nil
    subst hm
    rfl
  | cons c cs ih =>
    intro m hkeep hperm
    simp only [List.map_cons] at hperm
    have hmem : toAsciiUpper c ∈ m.map Prod.fst :=
      hperm.mem_iff.mp (List.mem_cons_self _ _)
    obtain ⟨d, m', he, hval, hp, hsub⟩ := removeKey_mem _ _ hmem
    have hd : d = Delta.Keep := hkeep _ hval
    have h1 : (removeKey (toAsciiUpper c) m).1 = some d := by rw [he]
    have h2 : (removeKey (toAsciiUpper c) m).2 = m' := by rw [he]
    have hperm' : List.Perm (cs.map toAsciiUpper) (m'.map Prod.fst) :=
      (hperm.trans hp).cons_inv
    have hkeep' : ∀ p ∈ m', p.2 = Delta.Keep := fun p hp' => hkeep p (hsub hp')
    have hrec := ih m' hkeep' hperm'
    simp only [scan, h1, h2, hrec, hd, Delta.apply]

theorem scan_remaining (raw : List Char) : ∀ (m : List (Char × Delta)) (K : Char),
    K ∈ m.map Prod.fst → (∀ c ∈ raw, toAsciiUpper c ≠ K) →
    K ∈ (scan m raw).2.1.map Prod.fst := by
  induction raw with
  | nil => intro m K hK _; simpa [scan] using hK
  | cons c cs ih =>
    intro m K hK hne
    by_cases hmem : toAsciiUpper c ∈ m.map Prod.fst
    · obtain ⟨d, m', he, _, hp, _⟩ := removeKey_mem _ _ hmem
      have h1 : (removeKey (toAsciiUpper c) m).1 = some d := by rw [he]
      have h2 : (removeKey (toAsciiUpper c) m).2 = m' := by rw [he]
      simp only [scan, h1, h2]
      have hK' : K ∈ m'.map Prod.fst := by
        rcases List.mem_cons.mp (hp.mem_iff.mp hK) with heq | hk'
        · exact absurd heq.symm (hne c (List.mem_cons_self _ _))
        · exact hk'
      exact ih m' K hK' (fun x hx => hne x (List.mem_cons_of_mem _ hx))
    · have h1 : (removeKey (toAsciiUpper c) m).1 = none := by
        rw [removeKey_eq_none _ _ hmem]
      simp only [scan, h1]
      exact ih m K hK (fun x hx => hne x (List.mem_cons_of_mem _ hx))

theorem toAsciiUpper_eq_iff (c K : Char) (h1 : 65 ≤ K.toNat) (h2 : K.toNat ≤ 90) :
    toAsciiUpper c = K ↔ c = K ∨ c = Char.ofNat (K.toNat + 32) := by
  have hv : (K.toNat + 32).isValidChar := Or.inl (by omega)
  have hlow : (Char.ofNat (K.toNat + 32)).toNat = K.toNat + 32 := toNat_ofNat_valid _ hv
  constructor
  · intro h
    have ht := congrArg Char.toNat h
    rw [toAsciiUpper_toNat] at ht
    by_cases hr : 97 ≤ c.toNat ∧ c.toNat ≤ 122
    · rw [if_pos hr] at ht
      right
      apply char_toNat_inj
      rw [hlow]
      omega
    · rw [if_neg hr] at ht
      left
      exact char_toNat_inj ht
  · intro h
    apply char_toNat_inj
    rw [toAsciiUpper_toNat]
    rcases h with rfl | rfl
    · rw [if_neg (by omega)]
    · rw [hlow, if_pos (by omega)]
      omega

theorem fold_eq_E (c : Char) : toAsciiUpper c = 'E' ↔ c = 'E' ∨ c = 'e' := by
  have h := toAsciiUpper_eq_iff c 'E' (by decide) (by decide)
  rwa [(by decide : Char.ofNat (Char.toNat 'E' + 32) = 'e')] at h

theorem fold_eq_M (c : Char) : toAsciiUpper c = 'M' ↔ c = 'M' ∨ c = 'm' := by
  have h := toAsciiUpper_eq_iff c 'M' (by decide) (by decide)
  rwa [(by decide : Char.ofNat (Char.toNat 'M' + 32) = 'm')] at h

theorem fold_eq_P (c : Char) : toAsciiUpper c = 'P' ↔ c = 'P' ∨ c = 'p' := by
  have h := toAsciiUpper_eq_iff c 'P' (by decide) (by decide)
  rwa [(by decide : Char.ofNat (Char.toNat 'P' + 32) = 'p')] at h

theorem fold_eq_R (c : Char) : toAsciiUpper c = 'R' ↔ c = 'R' ∨ c = 'r' := by
  have h := toAsciiUpper_eq_iff c 'R' (by decide) (by decide)
  rwa [(by decide : Char.ofNat (Char.toNat 'R' + 32) = 'r')] at h

theorem fold_eq_S (c : Char) : toAsciiUpper c = 'S' ↔ c = 'S' ∨ c = 's' := by
  have h := toAsciiUpper_eq_iff c 'S' (by decide) (by decide)
  rwa [(by decide : Char.ofNat (Char.toNat 'S' + 32) = 's')] at h

theorem fold_mem_keys_iff (c : Char) :
    toAsciiUpper c ∈ markKeys ↔
      c ∈ (['E', 'M', 'P', 'R', 'S', 'e', 'm', 'p', 'r', 's'] : List Char) := by
  simp only [markKeys, List.mem_cons, List.not_mem_nil, or_false,
    fold_eq_E, fold_eq_M, fold_eq_P, fold_eq_R, fold_eq_S]
  tauto

theorem mkDelta_keys (dP dE dM dR dS : Delta) :
    (mkDelta dP dE dM dR dS).map Prod.fst = markKeys := rfl

theorem reconcile_fold_perm (dP dE dM dR dS : Delta) (raw : List Char) :
    List.Perm ((reconcile (mkDelta dP dE dM dR dS) raw).1.map toAsciiUpper) markKeys := by
  have h := scan_perm raw (mkDelta dP dE dM dR dS)
  rw [mkDelta_keys] at h
  have hk : (scan (mkDelta dP dE dM dR dS) raw).2.1.map Prod.fst ⊆ markKeys := by
    rw [← mkDelta_keys dP dE dM dR dS]
    exact List.map_subset _ (scan_sub raw _)
  have hfold : ((scan (mkDelta dP dE dM dR dS) raw).2.1.map Prod.fst).map toAsciiUpper
      = (scan (mkDelta dP dE dM dR dS) raw).2.1.map Prod.fst := by
    have hid : ∀ x ∈ (scan (mkDelta dP dE dM dR dS) raw).2.1.map Prod.fst,
        toAsciiUpper x = id x := by
      intro x hx
      have hxk : x ∈ markKeys := hk hx
      simp only [markKeys, List.mem_cons, List.not_mem_nil, or_false] at hxk
      rcases hxk with rfl | rfl | rfl | rfl | rfl <;> decide
    rw [List.map_congr_left hid, List.map_id]
  show List.Perm (((scan (mkDelta dP dE dM dR dS) raw).1 ++
    (scan (mkDelta dP dE dM dR dS) raw).2.1.map Prod.fst).map toAsciiUpper) markKeys
  rw [List.map_append, hfold]
  exact h

theorem reconcile_valid_iff (dP dE dM dR dS : Delta) (raw : List Char) :
    (reconcile (mkDelta dP dE dM dR dS) raw).2 = true ↔
      ((raw.map toAsciiUpper).Nodup ∧ ∀ c ∈ raw, toAsciiUpper c ∈ markKeys) := by
  have h := scan_valid raw (mkDelta dP dE dM dR dS) (by rw [mkDelta_keys]; decide)
  rw [mkDelta_keys] at h
  exact h

/-- C1 counterexample: with every directive Disable (built by `Delta::new false true`)
and the empty raw string, the mark P is absent from the raw string, yet the output
contains the uppercase identifier 'P' and no lowercase 'p' — the claim's
"lowercase identifier when the directive is Disable" is false on the code. -/
theorem c1_counterexample :
    Delta.new false true = Delta.Disable ∧
      (∀ c ∈ ([] : List Char), toAsciiUpper c ≠ 'P') ∧
      'p' ∉ (reconcile (get_delta false true false true false true false true false true) []).1 ∧
      'P' ∈ (reconcile (get_delta false true false true false true false true false true) []).1 := by
  decide

/-- C1 (amended): every known mark whose case-folded identifier does not occur in the
raw string remains in the working map after the scan and is appended to the output as
its uppercase identifier key, regardless of its resolved directive. -/
theorem c1_absent_marks_appended (dP dE dM dR dS : Delta) (raw : List Char) (K : Char)
    (hK : K ∈ markKeys) (habs : ∀ c ∈ raw, toAsciiUpper c ≠ K) :
    K ∈ (scan (mkDelta dP dE dM dR dS) raw).2.1.map Prod.fst ∧
      (reconcile (mkDelta dP dE dM dR dS) raw).1
        = (scan (mkDelta dP dE dM dR dS) raw).1 ++
          (scan (mkDelta dP dE dM dR dS) raw).2.1.map Prod.fst := by
  refine ⟨?_, rfl⟩
  apply scan_remaining raw _ K ?_ habs
  rw [mkDelta_keys]
  exact hK

/-- C1 witness: mark P is absent from the raw string "E" and, although its directive
is Disable, is appended as the uppercase key 'P'. -/
theorem c1_absent_marks_appended_witness :
    'P' ∈ markKeys ∧ (∀ c ∈ (['E'] : List Char), toAsciiUpper c ≠ 'P') ∧
      ('P' ∈ (scan (mkDelta .Disable .Disable .Disable .Disable .Disable) ['E']).2.1.map Prod.fst ∧
        (reconcile (mkDelta .Disable .Disable .Disable .Disable .Disable) ['E']).1
          = (scan (mkDelta .Disable .Disable .Disable .Disable .Disable) ['E']).1 ++
            (scan (mkDelta .Disable .Disable .Disable .Disable .Disable) ['E']).2.1.map Prod.fst) :=
  ⟨by decide, by decide,
    c1_absent_marks_appended .Disable .Disable .Disable .Disable .Disable ['E'] 'P'
      (by decide) (by decide)⟩

/-- C2 counterexample: on the empty raw string the validity flag is true although the
raw string is not well-formed in the claim's sense (no known mark is present at all),
so validity is not equivalent to the claim's well-formedness. -/
theorem c2_counterexample :
    (reconcile (mkDelta .Keep .Keep .Keep .Keep .Keep) []).2 = true ∧
      ¬ wellFormedSpec [] := by
  refine ⟨rfl, ?_⟩
  unfold wellFormedSpec
  decide

/-- C2 (amended): for every directive set and raw string, the validity flag is true
iff the raw string has no duplicate marks and no unknown characters, i.e. every
character case-folds to a distinct known mark.  Presence of all five marks is not
required (absent marks are filled in from the map without clearing the flag). -/
theorem c2_valid_iff_no_dup_no_unknown (dP dE dM dR dS : Delta) (raw : List Char) :
    (reconcile (mkDelta dP dE dM dR dS) raw).2 = true ↔
      ((raw.map toAsciiUpper).Nodup ∧ ∀ c ∈ raw, toAsciiUpper c ∈ markKeys) :=
  reconcile_valid_iff dP dE dM dR dS raw

/-- C3: for every directive set and every raw string (empty, corrupted or arbitrarily
long), the output has length exactly 5, and its image under case folding is a
permutation of the five known mark identifiers — each known mark occurs exactly once,
case-insensitively. -/
theorem c3_output_invariant (dP dE dM dR dS : Delta) (raw : List Char) :
    (reconcile (mkDelta dP dE dM dR dS) raw).1.length = 5 ∧
      List.Perm ((reconcile (mkDelta dP dE dM dR dS) raw).1.map toAsciiUpper) markKeys := by
  have h := reconcile_fold_perm dP dE dM dR dS raw
  refine ⟨?_, h⟩
  have hlen := h.length_eq
  rw [List.length_map] at hlen
  exact hlen

/-- C4: the validity flag is false iff at least one character of the raw string was
skipped by the left-to-right scan — `countSkipped [] raw` counts exactly the
characters whose case-folded identity is not a known mark or was already consumed by
an earlier character — and every skipped character is excluded from the scanned
output (the scan output length plus the skipped count is the raw length). -/
theorem c4_skipped_iff (dP dE dM dR dS : Delta) (raw : List Char) :
    ((reconcile (mkDelta dP dE dM dR dS) raw).2 = false ↔ countSkipped [] raw ≠ 0) ∧
      (scan (mkDelta dP dE dM dR dS) raw).1.length + countSkipped [] raw = raw.length := by
  have h := scan_count raw (mkDelta dP dE dM dR dS) []
    (by rw [mkDelta_keys]; decide)
    (by intro k; rw [mkDelta_keys]; simp)
  refine ⟨?_, h.1⟩
  have h2 : (reconcile (mkDelta dP dE dM dR dS) raw).2 = true ↔
      countSkipped [] raw = 0 := h.2
  constructor
  · intro hf hc
    rw [h2.mpr hc] at hf
    cases hf
  · intro hc
    cases hb : (reconcile (mkDelta dP dE dM dR dS) raw).2 with
    | false => rfl
    | true => exact absurd (h2.mp hb) hc

/-- C5 counterexample: with every directive Disable (a reachable directive set, built
from the CLI booleans) the output on the empty raw string is the uppercase "EMPRS",
not the directive-resolved lowercase letters: 'e' is absent although the resolved
directive of mark E is Disable. -/
theorem c5_counterexample :
    Delta.new false true = Delta.Disable ∧
      (reconcile (get_delta false true false true false true false true false true) []).1
        = ['E', 'M', 'P', 'R', 'S'] ∧
      'e' ∉ (reconcile (get_delta false true false true false true false true false true) []).1 ∧
      (reconcile (get_delta false true false true false true false true false true) []).2
        = true := by
  decide

/-- C5 (amended): for every directive set, the Reconciler on the empty raw string
yields validity true and an output that is exactly the five uppercase mark
identifiers in ascending identifier order, regardless of the directives. -/
theorem c5_empty_input (dP dE dM dR dS : Delta) :
    reconcile (mkDelta dP dE dM dR dS) [] = (['E', 'M', 'P', 'R', 'S'], true) := rfl

/-- C6: for directives {P:Enable, E:Keep, M:Disable, R:Keep, S:Keep} (built from the
CLI booleans) and raw string "pEmRS", the Reconciler returns "PEmRS" with validity
true. -/
theorem c6_concrete_scenario :
    reconcile (get_delta true false false false false true false false false false)
      ['p', 'E', 'm', 'R', 'S'] = (['P', 'E', 'm', 'R', 'S'], true) := by
  decide

/-- C7: with the all-Keep directive set, any five-character raw string that contains
each of the five known marks exactly once (in any case and any order) reconciles to
itself, with validity true. -/
theorem c7_keep_identity (raw : List Char) (hlen : raw.length = 5)
    (hcount : ∀ K ∈ markKeys, (raw.map toAsciiUpper).count K = 1) :
    reconcile (mkDelta .Keep .Keep .Keep .Keep .Keep) raw = (raw, true) := by
  have hsub : List.Subperm markKeys (raw.map toAsciiUpper) := by
    rw [List.subperm_ext_iff]
    intro x hx
    rw [hcount x hx, List.count_eq_one_of_mem (by decide) hx]
  have hperm : List.Perm (raw.map toAsciiUpper) markKeys := by
    apply (hsub.perm_of_length_le ?_).symm
    rw [List.length_map, hlen]
    decide
  have hscan := scan_keep raw (mkDelta .Keep .Keep .Keep .Keep .Keep)
    (by decide) (by rw [mkDelta_keys]; exact hperm)
  unfold reconcile
  rw [hscan]
  simp

/-- C7 witness: the well-formed permutation "sRmEP" of the five marks is returned
unchanged by the all-Keep Reconciler. -/
theorem c7_keep_identity_witness :
    (['s', 'R', 'm', 'E', 'P'] : List Char).length = 5 ∧
      (∀ K ∈ markKeys,
        ((['s', 'R', 'm', 'E', 'P'] : List Char).map toAsciiUpper).count K = 1) ∧
      reconcile (mkDelta .Keep .Keep .Keep .Keep .Keep) ['s', 'R', 'm', 'E', 'P']
        = (['s', 'R', 'm', 'E', 'P'], true) :=
  ⟨by decide, by decide, c7_keep_identity ['s', 'R', 'm', 'E', 'P'] (by decide) (by decide)⟩

/-- C8: with the all-Keep directive set, the Reconciler's output on any raw string is
a fixed point: running the Reconciler again on that output returns it unchanged (with
validity true). -/
theorem c8_fixed_point (raw : List Char) :
    reconcile (mkDelta .Keep .Keep .Keep .Keep .Keep)
        ((reconcile (mkDelta .Keep .Keep .Keep .Keep .Keep) raw).1)
      = ((reconcile (mkDelta .Keep .Keep .Keep .Keep .Keep) raw).1, true) := by
  have hperm := reconcile_fold_perm .Keep .Keep .Keep .Keep .Keep raw
  have hscan := scan_keep ((reconcile (mkDelta .Keep .Keep .Keep .Keep .Keep) raw).1)
    (mkDelta .Keep .Keep .Keep .Keep .Keep) (by decide) (by rw [mkDelta_keys]; exact hperm)
  show ((scan (mkDelta .Keep .Keep .Keep .Keep .Keep)
      ((reconcile (mkDelta .Keep .Keep .Keep .Keep .Keep) raw).1)).1 ++
    (scan (mkDelta .Keep .Keep .Keep .Keep .Keep)
      ((reconcile (mkDelta .Keep .Keep .Keep .Keep .Keep) raw).1)).2.1.map Prod.fst,
    (scan (mkDelta .Keep .Keep .Keep .Keep .Keep)
      ((reconcile (mkDelta .Keep .Keep .Keep .Keep .Keep) raw).1)).2.2)
    = ((reconcile (mkDelta .Keep .Keep .Keep .Keep .Keep) raw).1, true)
  rw [hscan]
  simp

/-- C9: the Directive Set Builder `Delta::new` is total over boolean pairs and
resolves with precedence Enable over Disable over Keep: Enable whenever the enable
request is true regardless of the disable request, Disable when only the disable
request is true, Keep when both are false. -/
theorem c9_delta_new_precedence :
    (∀ d : Bool, Delta.new true d = Delta.Enable) ∧
      Delta.new false true = Delta.Disable ∧ Delta.new false false = Delta.Keep := by
  decide

/-- C10: mark identity is ASCII-only case folding: a character matches a known mark K
exactly when it is K itself or K's ASCII lowercase form; any character whose fold is
not a known mark — e.g. the non-ASCII letter 'ſ', whose Unicode uppercase would be
'S' — is excluded from the output and forces the validity flag to false. -/
theorem c10_ascii_only_folding :
    (∀ c K : Char, K ∈ markKeys →
        (toAsciiUpper c = K ↔ c = K ∨ c = toAsciiLower K)) ∧
      ∀ (dP dE dM dR dS : Delta) (raw : List Char) (c : Char), c ∈ raw →
        toAsciiUpper c ∉ markKeys →
        ((reconcile (mkDelta dP dE dM dR dS) raw).2 = false ∧
          c ∉ (reconcile (mkDelta dP dE dM dR dS) raw).1) := by
  constructor
  · intro c K hK
    simp only [markKeys, List.mem_cons, List.not_mem_nil, or_false] at hK
    rcases hK with rfl | rfl | rfl | rfl | rfl
    · rw [(by decide : toAsciiLower 'E' = 'e')]
      exact fold_eq_E c
    · rw [(by decide : toAsciiLower 'M' = 'm')]
      exact fold_eq_M c
    · rw [(by decide : toAsciiLower 'P' = 'p')]
      exact fold_eq_P c
    · rw [(by decide : toAsciiLower 'R' = 'r')]
      exact fold_eq_R c
    · rw [(by decide : toAsciiLower 'S' = 's')]
      exact fold_eq_S c
  · intro dP dE dM dR dS raw c hc hunk
    constructor
    · cases hb : (reconcile (mkDelta dP dE dM dR dS) raw).2 with
      | false => rfl
      | true =>
        have h := (reconcile_valid_iff dP dE dM dR dS raw).mp hb
        exact absurd (h.2 c hc) hunk
    · intro hmem
      have hperm := reconcile_fold_perm dP dE dM dR dS raw
      exact hunk (hperm.mem_iff.mp (List.mem_map_of_mem toAsciiUpper hmem))

/-- C10 witness: 'ſ' (U+017F) is not a mark even though its Unicode uppercase is 'S';
on the raw string "ſ" the validity flag is false and 'ſ' is excluded from the
output. -/
theorem c10_ascii_only_folding_witness :
    ('S' ∈ markKeys ∧ (toAsciiUpper 'ſ' = 'S' ↔ 'ſ' = 'S' ∨ 'ſ' = toAsciiLower 'S')) ∧
      ('ſ' ∈ (['ſ'] : List Char) ∧ toAsciiUpper 'ſ' ∉ markKeys ∧
        ((reconcile (mkDelta .Keep .Keep .Keep .Keep .Keep) ['ſ']).2 = false ∧
          'ſ' ∉ (reconcile (mkDelta .Keep .Keep .Keep .Keep .Keep) ['ſ']).1)) :=
  ⟨⟨by decide, c10_ascii_only_folding.1 'ſ' 'S' (by decide)⟩,
    by decide, by decide,
    c10_ascii_only_folding.2 .Keep .Keep .Keep .Keep .Keep ['ſ'] 'ſ' (by decide) (by decide)⟩

end Paxmark
